import Mathlib

/-!
Formal model of `src/source/resize.py`, a command-line utility that batch
resizes images to a given height or width.

The numeric code of the program computes with Python `float`s (IEEE-754
binary64).  The model embeds that arithmetic exactly: a finite `float` is
represented by an integer pair `m, p` denoting the dyadic rational
`m * 2^p` (`F.toRat`), and every `float`-producing operation rounds its
exact rational result with round-to-nearest, ties-to-even at 53 bits of
precision, clamping the scale at `2^-1074` for subnormal values.  Overflow
to infinity (magnitudes `≥ 2^1024`) and Python's `ZeroDivisionError` are
not modelled; all theorems stay in ranges where neither occurs.
-/

set_option maxRecDepth 4000

namespace Resize

/-! ### IEEE-754 binary64 arithmetic -/

/-- Fuel-indexed bit length: `bitlenAux fuel n` is the number of binary
digits of `n` whenever `n ≤ fuel` (structural recursion so that the kernel
can evaluate it). -/
def bitlenAux : Nat → Nat → Nat
  | 0, _ => 0
  | fuel + 1, n => if n = 0 then 0 else bitlenAux fuel (n / 2) + 1

/-- Number of binary digits of a natural number: `bitlen 0 = 0` and
`2^(bitlen n - 1) ≤ n < 2^(bitlen n)` for `0 < n`. -/
def bitlen (n : Nat) : Nat := bitlenAux n n

/-- Round the fraction `a / b` to the nearest natural number, ties to even
— the integer rounding used inside IEEE-754 round-to-nearest. -/
def rhe_div (a b : Nat) : Nat :=
  let q := a / b
  let r := a % b
  if 2 * r < b then q
  else if b < 2 * r then q + 1
  else if q % 2 = 0 then q else q + 1

/-- Does `2^k ≤ a / b` hold?  (`a`, `b` positive naturals, `k : ℤ`.) -/
def qle2 (k : ℤ) (a b : Nat) : Bool :=
  if 0 ≤ k then b * 2 ^ k.toNat ≤ a else b ≤ a * 2 ^ (-k).toNat

/-- Binary exponent of the positive fraction `a / b`: the unique `e` with
`2^e ≤ a/b < 2^(e+1)`. -/
def qexp (a b : Nat) : ℤ :=
  let e0 : ℤ := (bitlen a : ℤ) - (bitlen b : ℤ)
  if qle2 e0 a b then e0 else e0 - 1

/-- A finite IEEE-754 binary64 value, denoting `m * 2^p`. -/
structure F where
  m : ℤ
  p : ℤ
  deriving DecidableEq, Repr

/-- The rational value denoted by a binary64 value. -/
def F.toRat (x : F) : ℚ := (x.m : ℚ) * 2 ^ x.p

/-- Correctly rounded binary64 quotient of two natural numbers (both
positive; a zero divisor, which raises `ZeroDivisionError` in Python, is
not modelled). -/
def fdiv (a b : Nat) : F :=
  let p : ℤ := max (qexp a b - 52) (-1074)
  if 0 ≤ p then ⟨(rhe_div a (b * 2 ^ p.toNat) : ℤ), p⟩
  else ⟨(rhe_div (a * 2 ^ (-p).toNat) b : ℤ), p⟩

/-- Round the exact dyadic rational `m * 2^p` to a binary64 value. -/
def fround (m p : ℤ) : F :=
  if m = 0 then ⟨0, 0⟩
  else
    let e : ℤ := (bitlen m.natAbs : ℤ) - 1 + p
    let q : ℤ := max (e - 52) (-1074)
    if q ≤ p then ⟨m * 2 ^ (p - q).toNat, q⟩
    else if 0 ≤ m then ⟨(rhe_div m.toNat (2 ^ (q - p).toNat) : ℤ), q⟩
    else ⟨-(rhe_div (-m).toNat (2 ^ (q - p).toNat) : ℤ), q⟩

/-- Product of two binary64 values (correctly rounded). -/
def fmul (x y : F) : F := fround (x.m * y.m) (x.p + y.p)

/-- The binary64 value of a Python `int` (CPython converts with correct
rounding when an `int` meets a `float`). -/
def fofInt (n : ℤ) : F := fround n 0

/-- Comparison of two binary64 values (Python `<=` on floats compares the
denoted values). -/
def fle (x y : F) : Bool :=
  let pm := min x.p y.p
  x.m * 2 ^ (x.p - pm).toNat ≤ y.m * 2 ^ (y.p - pm).toNat

/-- Python `int()` applied to a finite `float`: truncation toward zero. -/
def ftrunc (x : F) : ℤ :=
  if 0 ≤ x.p then x.m * 2 ^ x.p.toNat
  else if 0 ≤ x.m then (x.m.toNat / 2 ^ (-x.p).toNat : ℕ)
  else -((-x.m).toNat / 2 ^ (-x.p).toNat : ℕ)

/-! ### Geometry calculator (`resize.py`, "Image Calculations" section)

`Size = namedtuple("Size", ["width", "height"])`; the fields are Python
`int`s.  An image is only ever inspected through `image.size`, so the model
identifies an image with its `Size`. -/

/-- `Size` namedtuple: an ordered pair (width, height) of Python ints. -/
structure Size where
  width : ℤ
  height : ℤ
  deriving DecidableEq, Repr

/-- `ratio(length_1, length_2)`: Python true division of two ints, the
correctly rounded binary64 quotient (sign handled symmetrically, as IEEE
rounding commutes with negation). -/
def ratio (length_1 length_2 : ℤ) : F :=
  let f := fdiv length_1.natAbs length_2.natAbs
  if (0 ≤ length_1 ↔ 0 ≤ length_2) then f else ⟨-f.m, f.p⟩

/-- `resize_height(image, width)`: the new height of an image given the new
width, `int(ratio(width, size.width) * size.height)` — the `int` factor is
converted to `float` before the product is taken. -/
def resize_height (size : Size) (width : ℤ) : ℤ :=
  ftrunc (fmul (ratio width size.width) (fofInt size.height))

/-- `resize_width(image, height)`: the new width of an image given the new
height, `int(ratio(height, size.height) * size.width)`. -/
def resize_width (size : Size) (height : ℤ) : ℤ :=
  ftrunc (fmul (ratio height size.height) (fofInt size.width))

/-- `to_height(image, height)`: the size of an image fitted to a given
height. -/
def to_height (size : Size) (height : ℤ) : Size :=
  ⟨resize_width size height, height⟩

/-- `to_width(image, width)`: the size of an image fitted to a given
width. -/
def to_width (size : Size) (width : ℤ) : Size :=
  ⟨width, resize_height size width⟩

/-- `height_ratio(size_1, size_2)`: the height ratio of two sizes. -/
def height_ratio (size_1 size_2 : Size) : F :=
  ratio size_2.height size_1.height

/-- `width_ratio(size_1, size_2)`: the width ratio of two sizes. -/
def width_ratio (size_1 size_2 : Size) : F :=
  ratio size_2.width size_1.width

/-- `within_size(image, max_size)`: the size of the image resized to fit
into `max_size`; the side with the smallest ratio determines the fit. -/
def within_size (size max_size : Size) : Size :=
  if fle (height_ratio size max_size) (width_ratio size max_size) then
    to_height size max_size.height
  else
    to_width size max_size.width

/-! ### Filenames (`resize.py`, "Directory" section)

Filenames are manipulated at the character level (`List Char`), matching
Python string indexing.  `py_lower` models `str.lower()` for the ASCII
range (the special Unicode case mappings Python also applies are not
modelled). -/

/-- Python `str.lower()` on a list of characters (ASCII range). -/
def py_lower (l : List Char) : List Char := l.map Char.toLower

/-- Index of the last occurrence of `c` in `l` (Python `str.rfind`, with
`none` standing for `-1`). -/
def lastIdxOf (c : Char) (l : List Char) : Option Nat :=
  match l.reverse.findIdx? (· == c) with
  | none => none
  | some i => some (l.length - 1 - i)

/-- `os.path.splitext` (posixpath): split off the extension at the last
dot, unless that dot belongs to the run of leading dots of the final path
component (so `".gif"` and `"a/..gif"` have no extension). -/
def splitext (l : List Char) : List Char × List Char :=
  match lastIdxOf '.' l with
  | none => (l, [])
  | some d =>
    let f : Nat :=
      match lastIdxOf '/' l with
      | none => 0
      | some s => s + 1
    if f ≤ d ∧ ((l.drop f).take (d - f)).any (· ≠ '.') then
      (l.take d, l.drop d)
    else (l, [])

/-- `extension(name)`: the extension of a file, lower case, without the
dot; empty when the name contains no `'.'`. -/
def extension (name : List Char) : List Char :=
  if name.contains '.' then py_lower ((splitext name).2.drop 1)
  else []

/-- `IMAGE_EXTENSIONS = ['gif', 'jpg', 'jpeg', 'png', 'webp']`. -/
def IMAGE_EXTENSIONS : List (List Char) :=
  ["gif".data, "jpg".data, "jpeg".data, "png".data, "webp".data]

/-- `is_image(name)`: the extension is one of `IMAGE_EXTENSIONS`. -/
def is_image (name : List Char) : Bool :=
  IMAGE_EXTENSIONS.contains (extension name)

/-- Python `str.removesuffix`: drop `suf` from the end of `s` when `s`
ends with the nonempty suffix `suf`, otherwise return `s` unchanged. -/
def removesuffix (s suf : List Char) : List Char :=
  if suf ≠ [] ∧ suf.isSuffixOf s then s.take (s.length - suf.length) else s

/-- `resize_name(path)`:
`path.removesuffix('.' + extension(path)) + ' - resized.' + extension(path)`. -/
def resize_name (path : List Char) : List Char :=
  removesuffix path ('.' :: extension path) ++ " - resized.".data ++ extension path

/-- `resize_name` lifted to `String` (the type the driver passes around). -/
def resize_nameS (path : String) : String := ⟨resize_name path.data⟩

/-- `is_image` lifted to `String`. -/
def is_imageS (name : String) : Bool := is_image name.data

/-- `read_image_files(path)`: the files of `read_files(path)` that are
image files.  `read_files` (directory listing / glob expansion) is
filesystem access and is passed in as a capability. -/
def read_image_files (read_files : String → List String) (path : String) :
    List String :=
  (read_files path).filter is_imageS

/-! ### Argument parser (`resize.py`, "Utils" and "Settings" sections) -/

/-- The two ways the modelled Python code can raise: `match_dict[item]`
with an absent key (`KeyError`) and `remainder[0]` on an empty list
(`IndexError`). -/
inductive PyErr where
  | keyError
  | indexError
  deriving DecidableEq, Repr

/-- Tag standing for the resize routine stored in `Operation.function`
(`resize_to_height` or `resize_to_width`). -/
inductive ResizeFn where
  | toHeightFn
  | toWidthFn
  deriving DecidableEq, Repr

/-- `Operation` dataclass: a name and a resize function reference. -/
structure Operation where
  name : String
  function : ResizeFn
  deriving DecidableEq, Repr

/-- `HEIGHT_OPERATION = Operation('height', resize_to_height)`. -/
def HEIGHT_OPERATION : Operation := ⟨"height", .toHeightFn⟩

/-- `WIDTH_OPERATION = Operation('width', resize_to_width)`. -/
def WIDTH_OPERATION : Operation := ⟨"width", .toWidthFn⟩

/-- The `OPERATION_ARGUMENTS` dict as an association list. -/
def OPERATION_ARGUMENTS : List (String × Operation) :=
  [("h", HEIGHT_OPERATION), ("height", HEIGHT_OPERATION),
   ("w", WIDTH_OPERATION), ("width", WIDTH_OPERATION)]

/-- `Settings` dataclass; `operation` and `length` are `none` when parsing
found no operation keyword / no number (Python leaves `None` there). -/
structure Settings where
  operation : Option Operation
  length : Option Nat
  directory : String
  deriving DecidableEq, Repr

/-- Python `str.isdigit` for the ASCII range: nonempty and all characters
are decimal digits (the extra Unicode digit categories Python accepts are
not modelled). -/
def py_isdigit (s : String) : Bool :=
  !s.data.isEmpty && s.data.all (·.isDigit)

/-- Python `int(...)` of a string of decimal digits. -/
def py_int (s : String) : Nat :=
  s.data.foldl (fun n c => 10 * n + (c.toNat - 48)) 0

/-- `find_number_in_list`: the first token consisting of digits. -/
def find_number_in_list (items : List String) : Option String :=
  items.find? py_isdigit

/-- `find_match_in_list`: the first token whose lower-cased form is a key
of `match_dict`. -/
def find_match_in_list (items : List String)
    (match_dict : List (String × Operation)) : Option String :=
  items.find? (fun item => (match_dict.lookup ⟨py_lower item.data⟩).isSome)

/-- `item_and_remainder`: when an item was found, `items.remove(item)`
drops its first occurrence from the list. -/
def item_and_remainder (item : Option String) (items : List String) :
    Option String × List String :=
  match item with
  | none => (none, items)
  | some x => (some x, items.erase x)

/-- `to_int_and_remainder`: parse the found token as an integer. -/
def to_int_and_remainder (item : Option String) (items : List String) :
    Option Nat × List String :=
  match item with
  | none => (none, items)
  | some x => (some (py_int x), items)

/-- `to_match_and_remainder`: `match_dict[item]` — the subscript uses the
item in its ORIGINAL case, so it raises `KeyError` whenever the token that
matched case-insensitively is not itself a key. -/
def to_match_and_remainder (item : Option String) (items : List String)
    (match_dict : List (String × Operation)) :
    Except PyErr (Option Operation × List String) :=
  match item with
  | none => .ok (none, items)
  | some x =>
    match match_dict.lookup x with
    | none => .error .keyError
    | some op => .ok (some op, items)

/-- `get_number_and_remainder`. -/
def get_number_and_remainder (items : List String) :
    Option Nat × List String :=
  let r := item_and_remainder (find_number_in_list items) items
  to_int_and_remainder r.1 r.2

/-- `get_match_and_remainder`. -/
def get_match_and_remainder (items : List String)
    (match_dict : List (String × Operation)) :
    Except PyErr (Option Operation × List String) :=
  let r := item_and_remainder (find_match_in_list items match_dict) items
  to_match_and_remainder r.1 r.2 match_dict

/-- `get_length(arguments)`. -/
def get_length (arguments : List String) : Option Nat × List String :=
  get_number_and_remainder arguments

/-- `get_operation(arguments)`. -/
def get_operation (arguments : List String) :
    Except PyErr (Option Operation × List String) :=
  get_match_and_remainder arguments OPERATION_ARGUMENTS

/-- `to_settings(arguments)`; the final `remainder[0]` raises `IndexError`
on an empty list, and the path token is resolved with `os.path.abspath`,
passed in as the capability `abspath`. -/
def to_settings (abspath : String → String) (arguments : List String) :
    Except PyErr Settings :=
  match get_operation arguments with
  | .error e => .error e
  | .ok (operation, remainder) =>
    let r := get_length remainder
    match r.2.head? with
    | none => .error .indexError
    | some p => .ok ⟨operation, r.1, abspath p⟩

/-! ### Resize executor and CLI driver (`resize.py`, "Image Operations",
"Main" and top-level code)

Image decoding is delegated to the PIL library; the only capability the
program uses of an opened image is its `size`, passed in here as the
oracle `size_of`.  `ExecTrace` records the externally visible file
effects. -/

/-- Effect trace of resize operations: files opened, and files written
together with the pixel size written. -/
structure ExecTrace where
  opened : List String
  saved : List (String × Size)
  deriving DecidableEq, Repr

/-- `resize_to_height(path, height)`: open `path`, resize to
`to_height(image, height)`, save under `resize_name(path)`. -/
def resize_to_height (size_of : String → Size) (path : String)
    (height : ℤ) : ExecTrace :=
  ⟨[path], [(resize_nameS path, to_height (size_of path) height)]⟩

/-- `resize_to_width(path, width)`: open `path`, resize to
`to_width(image, width)`, save under `resize_name(path)`. -/
def resize_to_width (size_of : String → Size) (path : String)
    (width : ℤ) : ExecTrace :=
  ⟨[path], [(resize_nameS path, to_width (size_of path) width)]⟩

/-- Dispatch of the `Operation.function` field. -/
def runFn (fn : ResizeFn) (size_of : String → Size) (path : String)
    (n : ℤ) : ExecTrace :=
  match fn with
  | .toHeightFn => resize_to_height size_of path n
  | .toWidthFn => resize_to_width size_of path n

/-- The `HELP` text of the program. -/
def HELP : String :=
  "Usage: resize \x27height\x27 | \x27width\x27  length  files | directory\n\nBatch resizes images to a given height or width.\nResizes any image files in the given directory or files.\n\nArguments:\n\n    \x27height\x27 | \x27width\x27     The resize operation to perform.\n    length                 The length in pixels to resize to.\n    files | directory      The files or directory to resize.\n\nExample:\n\n    resize height 1080 *.png\n"

/-- Observable outcome of one program run: the payloads of the `print`
calls made to standard output, the exit code, whether the run died with an
uncaught exception (Python then prints a traceback to standard error and
exits with code 1), and the file effects. -/
structure RunOutcome where
  output : List String
  exitCode : Nat
  crashed : Bool
  opened : List String
  saved : List (String × Size)
  deriving DecidableEq, Repr

/-- `resize_images(settings)` for settings that passed validation
(operation `op`, length `n`): banner, one `print(file)` per image file,
the resize traces, completion banner. -/
def resize_images (size_of : String → Size)
    (read_files : String → List String) (op : Operation) (n : Nat)
    (directory : String) : RunOutcome :=
  let files := read_image_files read_files directory
  let traces := files.map (fun f => runFn op.function size_of f (n : ℤ))
  { output := ["Resizing to " ++ op.name ++ " " ++ toString n ++ "...\n"]
      ++ files ++ ["\n" ++ "Done." ++ "\n"]
    exitCode := 0
    crashed := false
    opened := (traces.map ExecTrace.opened).flatten
    saved := (traces.map ExecTrace.saved).flatten }

/-- The whole program (the top-level statements of `resize.py`, with
`main`, `validate_settings` and `resize_images` inlined along the call
graph).  `argv` includes the program name.  Note `show_error_and_exit`
contains a bare `print` expression statement that names the builtin
without calling it, so a failed validation prints only the `nl()` blank
line — the message argument is never shown. -/
def run (abspath : String → String) (read_files : String → List String)
    (size_of : String → Size) (argv : List String) : RunOutcome :=
  if argv.length ≤ 3 then
    { output := ["", HELP], exitCode := 0, crashed := false,
      opened := [], saved := [] }
  else
    match to_settings abspath argv.tail with
    | .error _ =>
      { output := [""], exitCode := 1, crashed := true,
        opened := [], saved := [] }
    | .ok settings =>
      match settings.operation with
      | none =>
        { output := ["", ""], exitCode := 1, crashed := false,
          opened := [], saved := [] }
      | some op =>
        match settings.length with
        | none =>
          { output := ["", ""], exitCode := 1, crashed := false,
            opened := [], saved := [] }
        | some n =>
          if n = 0 then
            { output := ["", ""], exitCode := 1, crashed := false,
              opened := [], saved := [] }
          else
            let r := resize_images size_of read_files op n settings.directory
            { r with output := "" :: r.output }

/-! ### Correctness of the binary64 model -/

theorem bitlenAux_zero (fuel : ℕ) : bitlenAux fuel 0 = 0 := by
  cases fuel <;> simp [bitlenAux]

theorem bitlenAux_spec (fuel : ℕ) : ∀ n : ℕ, 0 < n → n ≤ fuel →
    ∃ k, bitlenAux fuel n = k + 1 ∧ 2 ^ k ≤ n ∧ n < 2 ^ (k + 1) := by
  induction fuel with
  | zero => intro n h0 hf; omega
  | succ fuel ih =>
    intro n h0 hf
    rw [bitlenAux, if_neg (by omega)]
    by_cases h2 : n < 2
    · have hn1 : n = 1 := by omega
      subst hn1
      refine ⟨0, ?_, by norm_num, by norm_num⟩
      norm_num [bitlenAux_zero]
    · have hdpos : 0 < n / 2 := Nat.div_pos (by omega) (by norm_num)
      have hdlt : n / 2 < n := Nat.div_lt_self h0 (by norm_num)
      obtain ⟨k, hk, hl, hu⟩ := ih (n / 2) hdpos (by omega)
      refine ⟨k + 1, by rw [hk], ?_, ?_⟩
      · have h22 : 2 ^ (k + 1) = 2 * 2 ^ k := by ring
        omega
      · have h22 : 2 ^ (k + 2) = 2 * 2 ^ (k + 1) := by ring
        omega

theorem bitlen_spec (n : ℕ) (h : 0 < n) :
    ∃ k, bitlen n = k + 1 ∧ 2 ^ k ≤ n ∧ n < 2 ^ (k + 1) :=
  bitlenAux_spec n n h le_rfl

theorem rhe_div_err (a b : ℕ) (hb : 0 < b) :
    |(rhe_div a b : ℚ) - (a : ℚ) / b| ≤ 1 / 2 := by
  have hbq : (0 : ℚ) < b := by exact_mod_cast hb
  have hmod := Nat.div_add_mod a b
  have hrb : a % b < b := Nat.mod_lt a hb
  have ha : (a : ℚ) = b * (a / b : ℕ) + (a % b : ℕ) := by exact_mod_cast hmod.symm
  have hdiv : (a : ℚ) / b = (a / b : ℕ) + (a % b : ℕ) / b := by
    rw [ha]; field_simp; ring
  have hr0 : (0 : ℚ) ≤ (a % b : ℕ) / b := by positivity
  have hr1 : ((a % b : ℕ) : ℚ) / b < 1 := by
    rw [div_lt_one hbq]; exact_mod_cast hrb
  rw [rhe_div]
  split_ifs with h1 h2 h3
  · have hle : ((a % b : ℕ) : ℚ) / b ≤ 1 / 2 := by
      rw [div_le_div_iff hbq (by norm_num)]
      have : ((2 * (a % b) : ℕ) : ℚ) ≤ b := by
        exact_mod_cast le_of_lt h1
      push_cast at this ⊢
      linarith
    rw [hdiv, abs_le]
    constructor <;> [linarith; linarith]
  · have hge : 1 / 2 ≤ ((a % b : ℕ) : ℚ) / b := by
      rw [div_le_div_iff (by norm_num) hbq]
      have : (b : ℚ) ≤ ((2 * (a % b) : ℕ) : ℚ) := by
        exact_mod_cast le_of_lt h2
      push_cast at this ⊢
      linarith
    rw [hdiv, abs_le]
    push_cast
    constructor <;> [linarith; linarith]
  · have heq : ((a % b : ℕ) : ℚ) / b = 1 / 2 := by
      rw [div_eq_div_iff (ne_of_gt hbq) (by norm_num : (2 : ℚ) ≠ 0)]
      have : ((2 * (a % b) : ℕ) : ℚ) = b := by
        exact_mod_cast le_antisymm (not_lt.1 h2) (not_lt.1 h1)
      push_cast at this ⊢
      linarith
    rw [hdiv, heq, abs_le]
    constructor <;> [linarith; linarith]
  · have heq : ((a % b : ℕ) : ℚ) / b = 1 / 2 := by
      rw [div_eq_div_iff (ne_of_gt hbq) (by norm_num : (2 : ℚ) ≠ 0)]
      have : ((2 * (a % b) : ℕ) : ℚ) = b := by
        exact_mod_cast le_antisymm (not_lt.1 h2) (not_lt.1 h1)
      push_cast at this ⊢
      linarith
    rw [hdiv, heq, abs_le]
    push_cast
    constructor <;> [linarith; linarith]

theorem qle2_spec (k : ℤ) (a b : ℕ) (hb : 0 < b) :
    qle2 k a b = true ↔ (2 : ℚ) ^ k ≤ (a : ℚ) / b := by
  have hbq : (0 : ℚ) < b := by exact_mod_cast hb
  rw [qle2]
  split_ifs with hk
  · rw [decide_eq_true_eq]
    rw [le_div_iff hbq]
    constructor
    · intro h
      have h' : ((b * 2 ^ k.toNat : ℕ) : ℚ) ≤ a := by exact_mod_cast h
      push_cast at h'
      calc (2 : ℚ) ^ k * b = 2 ^ k.toNat * b := by
            rw [← Int.toNat_of_nonneg hk, zpow_natCast, Int.toNat_of_nonneg hk]
        _ ≤ a := by linarith
    · intro h
      have h2 : (2 : ℚ) ^ k = 2 ^ k.toNat := by
        rw [← Int.toNat_of_nonneg hk, zpow_natCast, Int.toNat_of_nonneg hk]
      rw [h2] at h
      have h' : ((b * 2 ^ k.toNat : ℕ) : ℚ) ≤ a := by push_cast; linarith
      exact_mod_cast h'
  · rw [decide_eq_true_eq]
    push_neg at hk
    have hkk : k = -((-k).toNat : ℤ) := by omega
    have h2 : (2 : ℚ) ^ k = (2 ^ (-k).toNat)⁻¹ := by
      rw [← zpow_natCast (2 : ℚ) (-k).toNat, ← zpow_neg, ← hkk]
    rw [h2, inv_eq_one_div, div_le_div_iff (by positivity) hbq]
    constructor
    · intro h
      have h' : (b : ℚ) ≤ (a * 2 ^ (-k).toNat : ℕ) := by exact_mod_cast h
      push_cast at h'
      linarith
    · intro h
      have h' : (b : ℚ) ≤ ((a * 2 ^ (-k).toNat : ℕ) : ℚ) := by push_cast; linarith
      exact_mod_cast h'

theorem qexp_spec (a b : ℕ) (ha : 0 < a) (hb : 0 < b) :
    (2 : ℚ) ^ qexp a b ≤ (a : ℚ) / b ∧ (a : ℚ) / b < 2 ^ (qexp a b + 1) := by
  obtain ⟨ka, hka, hal, hau⟩ := bitlen_spec a ha
  obtain ⟨kb, hkb, hbl, hbu⟩ := bitlen_spec b hb
  have hbq : (0 : ℚ) < b := by exact_mod_cast hb
  have haq : (0 : ℚ) < a := by exact_mod_cast ha
  have halq : (2 : ℚ) ^ (ka : ℤ) ≤ a := by
    rw [zpow_natCast]; exact_mod_cast hal
  have hauq : (a : ℚ) < 2 ^ ((ka : ℤ) + 1) := by
    have : ((ka : ℤ) + 1) = ((ka + 1 : ℕ) : ℤ) := by push_cast; ring
    rw [this, zpow_natCast]; exact_mod_cast hau
  have hblq : (2 : ℚ) ^ (kb : ℤ) ≤ b := by
    rw [zpow_natCast]; exact_mod_cast hbl
  have hbuq : (b : ℚ) < 2 ^ ((kb : ℤ) + 1) := by
    have : ((kb : ℤ) + 1) = ((kb + 1 : ℕ) : ℤ) := by push_cast; ring
    rw [this, zpow_natCast]; exact_mod_cast hbu
  rw [qexp, hka, hkb]
  have he0 : ((ka + 1 : ℕ) : ℤ) - ((kb + 1 : ℕ) : ℤ) = (ka : ℤ) - kb := by
    push_cast; ring
  rw [he0]
  split_ifs with hq
  · refine ⟨(qle2_spec _ _ _ hb).1 hq, ?_⟩
    rw [div_lt_iff hbq]
    calc (a : ℚ) < 2 ^ ((ka : ℤ) + 1) := hauq
      _ = 2 ^ ((ka : ℤ) - kb + 1) * 2 ^ (kb : ℤ) := by
          rw [← zpow_add₀ (by norm_num : (2 : ℚ) ≠ 0)]; ring_nf
      _ ≤ 2 ^ ((ka : ℤ) - kb + 1) * b := by
          have := zpow_pos (by norm_num : (0 : ℚ) < 2) ((ka : ℤ) - kb + 1)
          exact mul_le_mul_of_nonneg_left hblq (le_of_lt this)
  · have hq' : ¬ (2 : ℚ) ^ ((ka : ℤ) - kb) ≤ (a : ℚ) / b := by
      intro hcon
      exact hq ((qle2_spec _ _ _ hb).2 hcon)
    push_neg at hq'
    constructor
    · rw [le_div_iff hbq]
      calc (2 : ℚ) ^ ((ka : ℤ) - kb - 1) * b
          ≤ 2 ^ ((ka : ℤ) - kb - 1) * 2 ^ ((kb : ℤ) + 1) := by
            have := zpow_pos (by norm_num : (0 : ℚ) < 2) ((ka : ℤ) - kb - 1)
            exact mul_le_mul_of_nonneg_left (le_of_lt hbuq) (le_of_lt this)
        _ = 2 ^ (ka : ℤ) := by
            rw [← zpow_add₀ (by norm_num : (2 : ℚ) ≠ 0)]; ring_nf
        _ ≤ a := halq
    · have : (ka : ℤ) - kb - 1 + 1 = (ka : ℤ) - kb := by ring
      rw [this]
      exact hq'

theorem toRat_mk (m p : ℤ) : (F.mk m p).toRat = (m : ℚ) * 2 ^ p := rfl

theorem toRat_nonneg (x : F) (h : 0 ≤ x.m) : 0 ≤ x.toRat := by
  have h2 := zpow_pos (by norm_num : (0 : ℚ) < 2) x.p
  have hm : (0 : ℚ) ≤ x.m := by exact_mod_cast h
  exact mul_nonneg hm (le_of_lt h2)

theorem round_scale_err (v x : ℚ) (p : ℤ) (hv : |x - v / 2 ^ p| ≤ 1 / 2) :
    |x * 2 ^ p - v| ≤ 2 ^ (p - 1) := by
  have hp := zpow_pos (by norm_num : (0 : ℚ) < 2) p
  have hkey : x * 2 ^ p - v = (x - v / 2 ^ p) * 2 ^ p := by field_simp
  rw [hkey, abs_mul, abs_of_pos hp]
  calc |x - v / 2 ^ p| * 2 ^ p ≤ 1 / 2 * 2 ^ p :=
        mul_le_mul_of_nonneg_right hv (le_of_lt hp)
    _ = 2 ^ (p - 1) := by
        rw [zpow_sub₀ (by norm_num : (2 : ℚ) ≠ 0)]; ring

theorem fdiv_m_nonneg (a b : ℕ) : 0 ≤ (fdiv a b).m := by
  rw [fdiv]
  split_ifs <;> exact Int.natCast_nonneg _

theorem fdiv_err (a b : ℕ) (N : ℤ) (ha : 0 < a) (hb : 0 < b)
    (hq : (a : ℚ) / b ≤ 2 ^ N) (hN : -1022 ≤ N) :
    |(fdiv a b).toRat - (a : ℚ) / b| ≤ 2 ^ (N - 53) := by
  obtain ⟨hel, _⟩ := qexp_spec a b ha hb
  have heN : qexp a b ≤ N :=
    (zpow_le_zpow_iff_right₀ (by norm_num : (1 : ℚ) < 2)).1 (le_trans hel hq)
  have hmono : (2 : ℚ) ^ (max (qexp a b - 52) (-1074) - 1) ≤ 2 ^ (N - 53) :=
    zpow_le_zpow_right₀ (by norm_num) (by omega)
  rw [fdiv]
  split_ifs with hp
  · set p := max (qexp a b - 52) (-1074) with hpdef
    have hB : 0 < b * 2 ^ p.toNat := by positivity
    have herr := rhe_div_err a (b * 2 ^ p.toNat) hB
    have hident : (a : ℚ) / (b * 2 ^ p.toNat : ℕ) = (a : ℚ) / b / 2 ^ p := by
      push_cast
      rw [show ((2 : ℚ) ^ p.toNat) = 2 ^ p by
        rw [← zpow_natCast (2 : ℚ) p.toNat, Int.toNat_of_nonneg hp]]
      rw [div_div]
    rw [hident] at herr
    rw [toRat_mk]
    exact le_trans (round_scale_err _ _ p herr) hmono
  · set p := max (qexp a b - 52) (-1074) with hpdef
    have herr := rhe_div_err (a * 2 ^ (-p).toNat) b hb
    have hpneg : p = -(((-p).toNat : ℕ) : ℤ) := by omega
    have h2 : (2 : ℚ) ^ p = ((2 : ℚ) ^ (-p).toNat)⁻¹ := by
      rw [← zpow_natCast (2 : ℚ) (-p).toNat, ← zpow_neg, ← hpneg]
    have hident : ((a * 2 ^ (-p).toNat : ℕ) : ℚ) / b = (a : ℚ) / b / 2 ^ p := by
      push_cast
      rw [h2, div_inv_eq_mul]
      ring
    rw [hident] at herr
    rw [toRat_mk]
    exact le_trans (round_scale_err _ _ p herr) hmono

theorem fround_m_nonneg (m p : ℤ) (hm : 0 ≤ m) : 0 ≤ (fround m p).m := by
  by_cases hm0 : m = 0
  · subst hm0; simp [fround]
  · simp only [fround, if_neg hm0]
    split_ifs with h1
    · exact mul_nonneg hm (pow_nonneg (by norm_num) _)
    · exact Int.natCast_nonneg _

theorem fround_err (m p N : ℤ) (hm : 0 ≤ m)
    (hv : (m : ℚ) * 2 ^ p ≤ 2 ^ N) (hN : -1022 ≤ N) :
    |(fround m p).toRat - (m : ℚ) * 2 ^ p| ≤ 2 ^ (N - 53) := by
  by_cases hm0 : m = 0
  · subst hm0
    have : (fround 0 p).toRat = 0 := by rw [fround, if_pos rfl, toRat_mk]; norm_num
    rw [this]
    simp only [Int.cast_zero, zero_mul, sub_zero, abs_zero]
    positivity
  · have hmpos : 0 < m := lt_of_le_of_ne hm (Ne.symm hm0)
    obtain ⟨k, hk, hl, hu⟩ := bitlen_spec m.natAbs (Int.natAbs_pos.2 hm0)
    have hcast : (m.natAbs : ℤ) = m := Int.natAbs_of_nonneg hm
    have hlq : (2 : ℚ) ^ (k : ℤ) ≤ m := by
      rw [zpow_natCast]
      have : ((2 ^ k : ℕ) : ℤ) ≤ m := by rw [← hcast]; exact_mod_cast hl
      exact_mod_cast this
    have hval : (2 : ℚ) ^ ((k : ℤ) + p) ≤ (m : ℚ) * 2 ^ p := by
      rw [zpow_add₀ (by norm_num : (2 : ℚ) ≠ 0)]
      have h2p := zpow_pos (by norm_num : (0 : ℚ) < 2) p
      exact mul_le_mul_of_nonneg_right hlq (le_of_lt h2p)
    have heN : (k : ℤ) + p ≤ N :=
      (zpow_le_zpow_iff_right₀ (by norm_num : (1 : ℚ) < 2)).1 (le_trans hval hv)
    simp only [fround, if_neg hm0]
    rw [hk]
    have hexp : ((k + 1 : ℕ) : ℤ) - 1 + p - 52 = (k : ℤ) + p - 52 := by push_cast; ring
    rw [hexp]
    have hmono : (2 : ℚ) ^ (max ((k : ℤ) + p - 52) (-1074) - 1) ≤ 2 ^ (N - 53) :=
      zpow_le_zpow_right₀ (by norm_num) (by omega)
    set s := max ((k : ℤ) + p - 52) (-1074) with hsdef
    split_ifs with hsp
    · rw [toRat_mk]
      have hident : ((m * 2 ^ (p - s).toNat : ℤ) : ℚ) * 2 ^ s = (m : ℚ) * 2 ^ p := by
        push_cast
        rw [show ((2 : ℚ) ^ (p - s).toNat) = 2 ^ (p - s) by
          rw [← zpow_natCast (2 : ℚ) (p - s).toNat, Int.toNat_of_nonneg (by omega : (0:ℤ) ≤ p - s)]]
        rw [mul_assoc, ← zpow_add₀ (by norm_num : (2 : ℚ) ≠ 0)]
        ring_nf
      rw [hident]
      simp only [sub_self, abs_zero]
      positivity
    · rw [toRat_mk]
      push_neg at hsp
      have hBpos : 0 < 2 ^ (s - p).toNat := by positivity
      have herr := rhe_div_err m.toNat (2 ^ (s - p).toNat) hBpos
      have hident : (m.toNat : ℚ) / ((2 ^ (s - p).toNat : ℕ) : ℚ)
          = (m : ℚ) * 2 ^ p / 2 ^ s := by
        have hmt : ((m.toNat : ℕ) : ℚ) = (m : ℚ) := by
          exact_mod_cast congrArg (Int.cast : ℤ → ℚ) (Int.toNat_of_nonneg hm)
        rw [hmt]
        push_cast
        rw [show ((2 : ℚ) ^ (s - p).toNat) = 2 ^ (s - p) by
          rw [← zpow_natCast (2 : ℚ) (s - p).toNat, Int.toNat_of_nonneg (by omega : (0:ℤ) ≤ s - p)]]
        rw [zpow_sub₀ (by norm_num : (2 : ℚ) ≠ 0), div_div_eq_mul_div]
      rw [hident] at herr
      exact le_trans (round_scale_err _ _ s herr) hmono

theorem fofInt_exact (n : ℤ) (h0 : 0 ≤ n) (h53 : n < 2 ^ 53) :
    (fofInt n).toRat = n := by
  by_cases hn0 : n = 0
  · subst hn0; simp [fofInt, fround, toRat_mk]
  · obtain ⟨k, hk, hl, _⟩ := bitlen_spec n.natAbs (Int.natAbs_pos.2 hn0)
    have hcast : (n.natAbs : ℤ) = n := Int.natAbs_of_nonneg h0
    have hk52 : (k : ℤ) ≤ 52 := by
      have hn53 : n.natAbs < 2 ^ 53 := by
        have h1 : (n.natAbs : ℤ) < 2 ^ 53 := by rw [hcast]; exact h53
        exact_mod_cast h1
      have hkk : (2 : ℕ) ^ k < 2 ^ 53 := lt_of_le_of_lt hl hn53
      have := (Nat.pow_lt_pow_iff_right (by norm_num : 1 < 2)).1 hkk
      omega
    simp only [fofInt, fround, if_neg hn0]
    rw [hk]
    have hexp : ((k + 1 : ℕ) : ℤ) - 1 + 0 - 52 = (k : ℤ) - 52 := by push_cast; ring
    rw [hexp]
    have hs : max ((k : ℤ) - 52) (-1074) = (k : ℤ) - 52 := by omega
    rw [hs, if_pos (by omega : (k : ℤ) - 52 ≤ (0 : ℤ)), toRat_mk]
    push_cast
    rw [show ((2 : ℚ) ^ ((0 : ℤ) - ((k : ℤ) - 52)).toNat) = 2 ^ ((0 : ℤ) - ((k : ℤ) - 52)) from by
      rw [← zpow_natCast (2 : ℚ) _, Int.toNat_of_nonneg (by omega)]]
    rw [mul_assoc, ← zpow_add₀ (by norm_num : (2 : ℚ) ≠ 0)]
    norm_num

theorem ftrunc_floor (x : F) (h : 0 ≤ x.m) : ftrunc x = ⌊x.toRat⌋ := by
  rw [ftrunc, F.toRat]
  split_ifs with hp
  · have hcast : (x.m : ℚ) * 2 ^ x.p = ((x.m * 2 ^ x.p.toNat : ℤ) : ℚ) := by
      push_cast
      rw [show ((2 : ℚ) ^ x.p.toNat) = 2 ^ x.p from by
        rw [← zpow_natCast (2 : ℚ) x.p.toNat, Int.toNat_of_nonneg hp]]
    rw [hcast, Int.floor_intCast]
  · have hmt : ((x.m.toNat : ℕ) : ℚ) = (x.m : ℚ) := by
      exact_mod_cast congrArg (Int.cast : ℤ → ℚ) (Int.toNat_of_nonneg h)
    have hval : (x.m : ℚ) * 2 ^ x.p
        = (x.m.toNat : ℚ) / ((2 ^ (-x.p).toNat : ℕ) : ℚ) := by
      rw [hmt]
      push_cast
      rw [show ((2 : ℚ) ^ (-x.p).toNat) = 2 ^ (-x.p) from by
        rw [← zpow_natCast (2 : ℚ) _, Int.toNat_of_nonneg (by omega : (0 : ℤ) ≤ -x.p)]]
      rw [zpow_neg, div_inv_eq_mul]
    rw [hval, Rat.floor_natCast_div_natCast]
    exact (Int.ofNat_div _ _).symm ▸ rfl

theorem fle_iff (x y : F) : fle x y = true ↔ x.toRat ≤ y.toRat := by
  simp only [fle, decide_eq_true_eq, F.toRat]
  have hx : ((x.m * 2 ^ (x.p - min x.p y.p).toNat : ℤ) : ℚ) * 2 ^ (min x.p y.p)
      = (x.m : ℚ) * 2 ^ x.p := by
    push_cast
    rw [show ((2 : ℚ) ^ (x.p - min x.p y.p).toNat) = 2 ^ (x.p - min x.p y.p) from by
      rw [← zpow_natCast (2 : ℚ) _, Int.toNat_of_nonneg (by omega)]]
    rw [mul_assoc, ← zpow_add₀ (by norm_num : (2 : ℚ) ≠ 0)]
    ring_nf
  have hy : ((y.m * 2 ^ (y.p - min x.p y.p).toNat : ℤ) : ℚ) * 2 ^ (min x.p y.p)
      = (y.m : ℚ) * 2 ^ y.p := by
    push_cast
    rw [show ((2 : ℚ) ^ (y.p - min x.p y.p).toNat) = 2 ^ (y.p - min x.p y.p) from by
      rw [← zpow_natCast (2 : ℚ) _, Int.toNat_of_nonneg (by omega)]]
    rw [mul_assoc, ← zpow_add₀ (by norm_num : (2 : ℚ) ≠ 0)]
    ring_nf
  rw [show (x.m * 2 ^ (x.p - min x.p y.p).toNat ≤ y.m * 2 ^ (y.p - min x.p y.p).toNat)
      ↔ ((x.m * 2 ^ (x.p - min x.p y.p).toNat : ℤ) : ℚ)
        ≤ ((y.m * 2 ^ (y.p - min x.p y.p).toNat : ℤ) : ℚ) from Int.cast_le.symm]
  rw [← mul_le_mul_right (zpow_pos (by norm_num : (0 : ℚ) < 2) (min x.p y.p)), hx, hy]

theorem ratio_pos_eq (a b : ℤ) (ha : 0 ≤ a) (hb : 0 ≤ b) :
    ratio a b = fdiv a.natAbs b.natAbs := by
  rw [ratio, if_pos (iff_of_true ha hb)]

theorem ratio_m_nonneg (a b : ℤ) (ha : 0 ≤ a) (hb : 0 ≤ b) :
    0 ≤ (ratio a b).m := by
  rw [ratio_pos_eq a b ha hb]
  exact fdiv_m_nonneg _ _

theorem ratio_err (a b N : ℤ) (ha : 0 < a) (hb : 0 < b)
    (hq : (a : ℚ) / b ≤ 2 ^ N) (hN : -1022 ≤ N) :
    |(ratio a b).toRat - (a : ℚ) / b| ≤ 2 ^ (N - 53) := by
  rw [ratio_pos_eq a b (le_of_lt ha) (le_of_lt hb)]
  have hca : ((a.natAbs : ℕ) : ℚ) = (a : ℚ) := by
    rw [← Int.cast_natCast (R := ℚ), Int.natAbs_of_nonneg (le_of_lt ha)]
  have hcb : ((b.natAbs : ℕ) : ℚ) = (b : ℚ) := by
    rw [← Int.cast_natCast (R := ℚ), Int.natAbs_of_nonneg (le_of_lt hb)]
  have := fdiv_err a.natAbs b.natAbs N (Int.natAbs_pos.2 (ne_of_gt ha))
    (Int.natAbs_pos.2 (ne_of_gt hb)) (by rw [hca, hcb]; exact hq) hN
  rwa [hca, hcb] at this

theorem floor_close (X Y : ℚ) (h : |X - Y| ≤ 1 / 2) : |⌊X⌋ - ⌊Y⌋| ≤ 1 := by
  rw [abs_le] at h
  have hYl : (⌊Y⌋ : ℚ) ≤ Y := Int.floor_le Y
  have hYu : Y < (⌊Y⌋ : ℚ) + 1 := Int.lt_floor_add_one Y
  have h1 : ⌊Y⌋ - 1 ≤ ⌊X⌋ := by
    rw [Int.le_floor]
    push_cast
    linarith
  have h2 : ⌊X⌋ < ⌊Y⌋ + 2 := by
    rw [Int.floor_lt]
    push_cast
    linarith
  rw [abs_le]
  omega

theorem fmul_toRat_arg (r w : F) :
    ((r.m * w.m : ℤ) : ℚ) * 2 ^ (r.p + w.p) = r.toRat * w.toRat := by
  rw [F.toRat, F.toRat, zpow_add₀ (by norm_num : (2 : ℚ) ≠ 0)]
  push_cast
  ring

theorem trunc_mul_close (a b c : ℤ) (ha : 0 < a) (hb : 0 < b) (hc : 0 < c)
    (ha2 : a ≤ 2 ^ 20) (hc2 : c ≤ 2 ^ 20) :
    0 ≤ ftrunc (fmul (ratio a b) (fofInt c)) ∧
    |ftrunc (fmul (ratio a b) (fofInt c)) - a * c / b| ≤ 1 := by
  have haq : (a : ℚ) ≤ 1048576 := by exact_mod_cast ha2
  have hcq : (c : ℚ) ≤ 1048576 := by exact_mod_cast hc2
  have haq0 : (0 : ℚ) < a := by exact_mod_cast ha
  have hbq0 : (0 : ℚ) < b := by exact_mod_cast hb
  have hcq0 : (0 : ℚ) < c := by exact_mod_cast hc
  have hbq1 : (1 : ℚ) ≤ b := by exact_mod_cast hb
  have hq1le : (a : ℚ) / b ≤ 2 ^ (20 : ℤ) := by
    have := div_le_self (le_of_lt haq0) hbq1
    have h20 : (2 : ℚ) ^ (20 : ℤ) = 1048576 := by norm_num
    linarith
  have h1 := ratio_err a b 20 ha hb hq1le (by norm_num)
  have hrm : 0 ≤ (ratio a b).m := ratio_m_nonneg a b (le_of_lt ha) (le_of_lt hb)
  have hr0 : 0 ≤ (ratio a b).toRat := toRat_nonneg _ hrm
  have hwrat : (fofInt c).toRat = c :=
    fofInt_exact c (le_of_lt hc) (by omega)
  have hwm : 0 ≤ (fofInt c).m := fround_m_nonneg c 0 (le_of_lt hc)
  have hmm : 0 ≤ (ratio a b).m * (fofInt c).m := mul_nonneg hrm hwm
  have herr1 : |(ratio a b).toRat - (a : ℚ) / b| ≤ 1 / 8589934592 := by
    have h33 : (2 : ℚ) ^ ((20 : ℤ) - 53) = 1 / 8589934592 := by norm_num
    rw [← h33]; exact h1
  have hrle : (ratio a b).toRat ≤ 1048576 + 1 / 8589934592 := by
    rw [abs_le] at herr1
    have := div_le_self (le_of_lt haq0) hbq1
    linarith
  have hvle : (((ratio a b).m * (fofInt c).m : ℤ) : ℚ) * 2 ^ ((ratio a b).p + (fofInt c).p)
      ≤ 2 ^ (41 : ℤ) := by
    rw [fmul_toRat_arg, hwrat]
    have h41 : (2 : ℚ) ^ (41 : ℤ) = 2199023255552 := by norm_num
    rw [h41]
    calc (ratio a b).toRat * c ≤ (1048576 + 1 / 8589934592) * 1048576 := by
          apply mul_le_mul hrle hcq (le_of_lt hcq0)
          linarith
      _ ≤ 2199023255552 := by norm_num
  have h2 := fround_err ((ratio a b).m * (fofInt c).m)
    ((ratio a b).p + (fofInt c).p) 41 hmm hvle (by norm_num)
  rw [fmul_toRat_arg, hwrat] at h2
  have herr2 : |(fmul (ratio a b) (fofInt c)).toRat - (ratio a b).toRat * c|
      ≤ 1 / 4096 := by
    have h12 : (2 : ℚ) ^ ((41 : ℤ) - 53) = 1 / 4096 := by norm_num
    rw [← h12]; exact h2
  have htotal : |(fmul (ratio a b) (fofInt c)).toRat - (a : ℚ) * c / b| ≤ 1 / 2 := by
    have htri := abs_sub_le (fmul (ratio a b) (fofInt c)).toRat
      ((ratio a b).toRat * c) ((a : ℚ) * c / b)
    have hmid : (ratio a b).toRat * c - (a : ℚ) * c / b
        = ((ratio a b).toRat - (a : ℚ) / b) * c := by
      field_simp
      ring
    have hmid2 : |(ratio a b).toRat * c - (a : ℚ) * c / b| ≤ 1 / 8589934592 * 1048576 := by
      rw [hmid, abs_mul, abs_of_pos hcq0]
      apply mul_le_mul herr1 hcq (le_of_lt hcq0)
      norm_num
    calc |(fmul (ratio a b) (fofInt c)).toRat - (a : ℚ) * c / b|
        ≤ |(fmul (ratio a b) (fofInt c)).toRat - (ratio a b).toRat * c|
          + |(ratio a b).toRat * c - (a : ℚ) * c / b| := htri
      _ ≤ 1 / 4096 + 1 / 8589934592 * 1048576 := by linarith
      _ ≤ 1 / 2 := by norm_num
  have hfm : 0 ≤ (fmul (ratio a b) (fofInt c)).m := fround_m_nonneg _ _ hmm
  have hftr : ftrunc (fmul (ratio a b) (fofInt c))
      = ⌊(fmul (ratio a b) (fofInt c)).toRat⌋ := ftrunc_floor _ hfm
  have hfloor : ⌊(a : ℚ) * c / b⌋ = a * c / b := by
    have hbt : ((b.toNat : ℕ) : ℤ) = b := Int.toNat_of_nonneg (le_of_lt hb)
    have hcast : (a : ℚ) * c / b = ((a * c : ℤ) : ℚ) / ((b.toNat : ℕ) : ℚ) := by
      push_cast
      rw [show ((b.toNat : ℕ) : ℚ) = (b : ℚ) from by exact_mod_cast congrArg (Int.cast : ℤ → ℚ) hbt]
    rw [hcast, Rat.floor_intCast_div_natCast, hbt]
  constructor
  · rw [hftr]
    rw [Int.floor_nonneg]
    exact toRat_nonneg _ hfm
  · rw [hftr, ← hfloor]
    exact floor_close _ _ htotal

theorem trunc_mul_le (r : F) (c t : ℤ) (hc : 0 < c) (ht : 0 < t)
    (hc2 : c ≤ 2 ^ 20) (ht2 : t ≤ 2 ^ 20) (hrm : 0 ≤ r.m)
    (hrle : r.toRat ≤ (t : ℚ) / c + 1 / 8589934592) :
    ftrunc (fmul r (fofInt c)) ≤ t := by
  have hcq : (c : ℚ) ≤ 1048576 := by exact_mod_cast hc2
  have htq : (t : ℚ) ≤ 1048576 := by exact_mod_cast ht2
  have hcq0 : (0 : ℚ) < c := by exact_mod_cast hc
  have htq0 : (0 : ℚ) < t := by exact_mod_cast ht
  have hwrat : (fofInt c).toRat = c :=
    fofInt_exact c (le_of_lt hc) (by omega)
  have hwm : 0 ≤ (fofInt c).m := fround_m_nonneg c 0 (le_of_lt hc)
  have hmm : 0 ≤ r.m * (fofInt c).m := mul_nonneg hrm hwm
  have hr0 : 0 ≤ r.toRat := toRat_nonneg _ hrm
  have hvle0 : r.toRat * c ≤ t + 1 / 8192 := by
    have hstep : r.toRat * c ≤ ((t : ℚ) / c + 1 / 8589934592) * c :=
      mul_le_mul_of_nonneg_right hrle (le_of_lt hcq0)
    have hdc : (t : ℚ) / c * c = t := div_mul_cancel₀ _ (ne_of_gt hcq0)
    have hd2 : (1 : ℚ) / 8589934592 * c ≤ 1 / 8192 := by
      calc (1 : ℚ) / 8589934592 * c ≤ 1 / 8589934592 * 1048576 := by
            apply mul_le_mul_of_nonneg_left hcq
            norm_num
        _ ≤ 1 / 8192 := by norm_num
    calc r.toRat * c ≤ (t : ℚ) / c * c + 1 / 8589934592 * c := by
          rw [← add_mul]; exact hstep
      _ ≤ t + 1 / 8192 := by rw [hdc]; linarith
  have hvle : ((r.m * (fofInt c).m : ℤ) : ℚ) * 2 ^ (r.p + (fofInt c).p)
      ≤ 2 ^ (41 : ℤ) := by
    rw [fmul_toRat_arg, hwrat]
    have h41 : (2 : ℚ) ^ (41 : ℤ) = 2199023255552 := by norm_num
    rw [h41]
    linarith
  have h2 := fround_err (r.m * (fofInt c).m) (r.p + (fofInt c).p) 41 hmm hvle
    (by norm_num)
  rw [fmul_toRat_arg, hwrat] at h2
  have herr2 : |(fmul r (fofInt c)).toRat - r.toRat * c| ≤ 1 / 4096 := by
    have h12 : (2 : ℚ) ^ ((41 : ℤ) - 53) = 1 / 4096 := by norm_num
    rw [← h12]; exact h2
  have hfm : 0 ≤ (fmul r (fofInt c)).m := fround_m_nonneg _ _ hmm
  rw [ftrunc_floor _ hfm]
  have hlt : (fmul r (fofInt c)).toRat < (t : ℚ) + 1 := by
    rw [abs_le] at herr2
    linarith
  have : ⌊(fmul r (fofInt c)).toRat⌋ < t + 1 := by
    rw [Int.floor_lt]
    push_cast
    exact hlt
  omega

theorem div_le_pow20 (a b : ℤ) (ha : 0 < a) (hb : 0 < b) (ha2 : a ≤ 2 ^ 20) :
    (a : ℚ) / b ≤ 2 ^ (20 : ℤ) := by
  have haq0 : (0 : ℚ) ≤ a := by exact_mod_cast le_of_lt ha
  have hbq1 : (1 : ℚ) ≤ b := by exact_mod_cast hb
  have haq : (a : ℚ) ≤ 1048576 := by exact_mod_cast ha2
  have h20 : (2 : ℚ) ^ (20 : ℤ) = 1048576 := by norm_num
  have := div_le_self haq0 hbq1
  linarith

/-- C1 counterexample: for the 100×100 image and target height 29, the
program returns width 28, not `⌊29 / 100 × 100⌋ = 29`: the double-precision
value of `29/100` is slightly below `0.29`, so `0.29 * 100` evaluates to
`28.999999999999996` and `int()` truncates it to 28. -/
theorem c1_counterexample :
    (to_height ⟨100, 100⟩ 29).width = 28 ∧
    ⌊(29 : ℚ) / 100 * 100⌋ = 29 ∧ (28 : ℤ) ≠ 29 :=
  ⟨by decide, by norm_num, by decide⟩

/-- C1 (amended): for every image size and target length that are positive
and at most `2^20`, fit-to-height returns height exactly `h` and a
nonnegative width that is within one pixel of `⌊h / height × width⌋` — the
value actually produced is the truncation of the double-precision product,
which rounding can push one below (or above) the exact floor — and
symmetrically for fit-to-width. -/
theorem c1_amended (size : Size) (t : ℤ)
    (hw : 0 < size.width) (hh : 0 < size.height) (ht : 0 < t)
    (hw2 : size.width ≤ 2 ^ 20) (hh2 : size.height ≤ 2 ^ 20)
    (ht2 : t ≤ 2 ^ 20) :
    (to_height size t).height = t ∧
    0 ≤ (to_height size t).width ∧
    |(to_height size t).width - t * size.width / size.height| ≤ 1 ∧
    (to_width size t).width = t ∧
    0 ≤ (to_width size t).height ∧
    |(to_width size t).height - t * size.height / size.width| ≤ 1 := by
  obtain ⟨h1, h2⟩ := trunc_mul_close t size.height size.width ht hh hw ht2 hw2
  obtain ⟨h3, h4⟩ := trunc_mul_close t size.width size.height ht hw hh ht2 hh2
  exact ⟨rfl, h1, h2, rfl, h3, h4⟩

theorem c1_amended_witness :
    ((0 : ℤ) < 400 ∧ (0 : ℤ) < 300 ∧ (0 : ℤ) < 150 ∧
      (400 : ℤ) ≤ 2 ^ 20 ∧ (300 : ℤ) ≤ 2 ^ 20 ∧ (150 : ℤ) ≤ 2 ^ 20) ∧
    ((to_height ⟨400, 300⟩ 150).height = 150 ∧
      0 ≤ (to_height ⟨400, 300⟩ 150).width ∧
      |(to_height ⟨400, 300⟩ 150).width - 150 * 400 / 300| ≤ 1 ∧
      (to_width ⟨400, 300⟩ 150).width = 150 ∧
      0 ≤ (to_width ⟨400, 300⟩ 150).height ∧
      |(to_width ⟨400, 300⟩ 150).height - 150 * 300 / 400| ≤ 1) :=
  ⟨by decide,
    c1_amended ⟨400, 300⟩ 150 (by decide) (by decide) (by decide)
      (by decide) (by decide) (by decide)⟩

/-- C2 counterexample: for the 3×2 image and the bounding box
9007199254740991 × 6004799503160661 the two double-precision ratios
collapse to the same value, the height branch is taken, and the computed
width `int((6004799503160661 / 2) * 3)` rounds up to `2^53 =
9007199254740992`, exceeding the box width `2^53 - 1`. -/
theorem c2_counterexample :
    (within_size ⟨3, 2⟩ ⟨9007199254740991, 6004799503160661⟩).width
      = 9007199254740992 ∧
    ¬ (within_size ⟨3, 2⟩ ⟨9007199254740991, 6004799503160661⟩).width
      ≤ 9007199254740991 :=
  ⟨by decide, by decide⟩

/-- C2 (amended): for every image size and bounding box that are positive
and at most `2^20` on every side, `within_size` chooses fit-to-height
exactly when the double-precision height ratio compares `≤` to the
double-precision width ratio (so a tie resolves to fit-to-height), and the
resulting size fits the box on both axes. -/
theorem c2_amended (size max_size : Size)
    (hw : 0 < size.width) (hh : 0 < size.height)
    (hbw : 0 < max_size.width) (hbh : 0 < max_size.height)
    (hw2 : size.width ≤ 2 ^ 20) (hh2 : size.height ≤ 2 ^ 20)
    (hbw2 : max_size.width ≤ 2 ^ 20) (hbh2 : max_size.height ≤ 2 ^ 20) :
    (fle (height_ratio size max_size) (width_ratio size max_size) = true →
      within_size size max_size = to_height size max_size.height) ∧
    (fle (height_ratio size max_size) (width_ratio size max_size) = false →
      within_size size max_size = to_width size max_size.width) ∧
    (within_size size max_size).width ≤ max_size.width ∧
    (within_size size max_size).height ≤ max_size.height := by
  have h33 : (2 : ℚ) ^ ((20 : ℤ) - 53) = 1 / 8589934592 := by norm_num
  by_cases hbr : fle (height_ratio size max_size) (width_ratio size max_size) = true
  · have hws : within_size size max_size = to_height size max_size.height := by
      rw [within_size, if_pos hbr]
    refine ⟨fun _ => hws, fun hfalse => absurd (hbr.symm.trans hfalse) (by decide), ?_, ?_⟩
    · rw [hws]
      show ftrunc (fmul (ratio max_size.height size.height) (fofInt size.width))
        ≤ max_size.width
      apply trunc_mul_le (ratio max_size.height size.height) size.width
        max_size.width hw hbw hw2 hbw2
        (ratio_m_nonneg _ _ (le_of_lt hbh) (le_of_lt hh))
      have hle := (fle_iff _ _).1 hbr
      have herr := ratio_err max_size.width size.width 20 hbw hw
        (div_le_pow20 _ _ hbw hw hbw2) (by norm_num)
      rw [abs_le, h33] at herr
      calc (ratio max_size.height size.height).toRat
          ≤ (ratio max_size.width size.width).toRat := hle
        _ ≤ (max_size.width : ℚ) / size.width + 1 / 8589934592 := by
            obtain ⟨_, hr⟩ := herr
            linarith
    · rw [hws]
      exact le_rfl
  · have hbf : fle (height_ratio size max_size) (width_ratio size max_size) = false :=
      eq_false_of_ne_true hbr
    have hws : within_size size max_size = to_width size max_size.width := by
      rw [within_size, if_neg hbr]
    refine ⟨fun htrue => absurd htrue hbr, fun _ => hws, ?_, ?_⟩
    · rw [hws]
      exact le_rfl
    · rw [hws]
      show ftrunc (fmul (ratio max_size.width size.width) (fofInt size.height))
        ≤ max_size.height
      apply trunc_mul_le (ratio max_size.width size.width) size.height
        max_size.height hh hbh hh2 hbh2
        (ratio_m_nonneg _ _ (le_of_lt hbw) (le_of_lt hw))
      have hnle : ¬ (height_ratio size max_size).toRat
          ≤ (width_ratio size max_size).toRat := by
        intro hcon
        exact hbr ((fle_iff _ _).2 hcon)
      push_neg at hnle
      have herr := ratio_err max_size.height size.height 20 hbh hh
        (div_le_pow20 _ _ hbh hh hbh2) (by norm_num)
      rw [abs_le, h33] at herr
      calc (ratio max_size.width size.width).toRat
          ≤ (ratio max_size.height size.height).toRat := le_of_lt hnle
        _ ≤ (max_size.height : ℚ) / size.height + 1 / 8589934592 := by
            obtain ⟨_, hr⟩ := herr
            linarith

theorem c2_amended_witness :
    ((0 : ℤ) < 400 ∧ (0 : ℤ) < 300 ∧ (0 : ℤ) < 200 ∧ (0 : ℤ) < 150 ∧
      (400 : ℤ) ≤ 2 ^ 20 ∧ (300 : ℤ) ≤ 2 ^ 20 ∧
      (200 : ℤ) ≤ 2 ^ 20 ∧ (150 : ℤ) ≤ 2 ^ 20) ∧
    ((fle (height_ratio ⟨400, 300⟩ ⟨200, 150⟩) (width_ratio ⟨400, 300⟩ ⟨200, 150⟩) = true →
        within_size ⟨400, 300⟩ ⟨200, 150⟩ = to_height ⟨400, 300⟩ 150) ∧
      (fle (height_ratio ⟨400, 300⟩ ⟨200, 150⟩) (width_ratio ⟨400, 300⟩ ⟨200, 150⟩) = false →
        within_size ⟨400, 300⟩ ⟨200, 150⟩ = to_width ⟨400, 300⟩ 200) ∧
      (within_size ⟨400, 300⟩ ⟨200, 150⟩).width ≤ 200 ∧
      (within_size ⟨400, 300⟩ ⟨200, 150⟩).height ≤ 150) :=
  ⟨by decide,
    c2_amended ⟨400, 300⟩ ⟨200, 150⟩ (by decide) (by decide) (by decide)
      (by decide) (by decide) (by decide) (by decide) (by decide)⟩

/-! ### Argument parser theorems -/

/-- C3: for a three-token list made of one lower-case operation keyword,
one all-digits token, and one token that is neither (in the
case-insensitive sense the scanner uses), every permutation parses to the
same `Settings`: the keyword's `Operation`, the parsed integer, and the
absolute path of the remaining token. -/
theorem c3_aux (abspath : String → String) (op num other : String)
    (o : Operation)
    (hlook : OPERATION_ARGUMENTS.lookup op = some o)
    (hPop : (OPERATION_ARGUMENTS.lookup ⟨py_lower op.data⟩).isSome = true)
    (hP1 : (OPERATION_ARGUMENTS.lookup ⟨py_lower num.data⟩).isSome = false)
    (hP2 : (OPERATION_ARGUMENTS.lookup ⟨py_lower other.data⟩).isSome = false)
    (hdnum : py_isdigit num = true)
    (hdoth : py_isdigit other = false)
    (hb1 : (num == op) = false) (hb2 : (other == op) = false)
    (hb3 : (other == num) = false) :
    ∀ args ∈ [[op, num, other], [op, other, num], [num, op, other],
      [num, other, op], [other, op, num], [other, num, op]],
      to_settings abspath args =
        .ok ⟨some o, some (py_int num), abspath other⟩ := by
  intro args hargs
  simp only [List.mem_cons, List.not_mem_nil, or_false] at hargs
  rcases hargs with rfl | rfl | rfl | rfl | rfl | rfl <;>
    simp [to_settings, get_operation, get_match_and_remainder,
      find_match_in_list, item_and_remainder, to_match_and_remainder,
      get_length, get_number_and_remainder, find_number_in_list,
      to_int_and_remainder, List.find?, List.erase_cons,
      hPop, hlook, hP1, hP2, hb1, hb2, hb3, hdnum, hdoth]

theorem c3_perm (abspath : String → String) (op num other : String)
    (hop : op ∈ ["h", "height", "w", "width"])
    (hknum : OPERATION_ARGUMENTS.lookup ⟨py_lower num.data⟩ = none)
    (hkoth : OPERATION_ARGUMENTS.lookup ⟨py_lower other.data⟩ = none)
    (hdnum : py_isdigit num = true)
    (hdoth : py_isdigit other = false) :
    ∃ o : Operation, OPERATION_ARGUMENTS.lookup op = some o ∧
      ∀ args ∈ [[op, num, other], [op, other, num], [num, op, other],
        [num, other, op], [other, op, num], [other, num, op]],
        to_settings abspath args =
          .ok ⟨some o, some (py_int num), abspath other⟩ := by
  have hP1 : (OPERATION_ARGUMENTS.lookup ⟨py_lower num.data⟩).isSome = false := by
    rw [hknum]; rfl
  have hP2 : (OPERATION_ARGUMENTS.lookup ⟨py_lower other.data⟩).isSome = false := by
    rw [hkoth]; rfl
  have hne3 : other ≠ num := by
    intro heq; rw [heq, hdnum] at hdoth; cases hdoth
  have hb3 : (other == num) = false := beq_eq_false_iff_ne.mpr hne3
  fin_cases hop
  · refine ⟨HEIGHT_OPERATION, by decide, ?_⟩
    refine c3_aux abspath ("h") num other HEIGHT_OPERATION (by decide) (by decide)
      hP1 hP2 hdnum hdoth ?_ ?_ hb3
    · exact beq_eq_false_iff_ne.mpr (by
        intro heq; rw [heq] at hdnum; exact absurd hdnum (by decide))
    · exact beq_eq_false_iff_ne.mpr (by
        intro heq; rw [heq] at hkoth; exact absurd hkoth (by decide))
  · refine ⟨HEIGHT_OPERATION, by decide, ?_⟩
    refine c3_aux abspath ("height") num other HEIGHT_OPERATION (by decide) (by decide)
      hP1 hP2 hdnum hdoth ?_ ?_ hb3
    · exact beq_eq_false_iff_ne.mpr (by
        intro heq; rw [heq] at hdnum; exact absurd hdnum (by decide))
    · exact beq_eq_false_iff_ne.mpr (by
        intro heq; rw [heq] at hkoth; exact absurd hkoth (by decide))
  · refine ⟨WIDTH_OPERATION, by decide, ?_⟩
    refine c3_aux abspath ("w") num other WIDTH_OPERATION (by decide) (by decide)
      hP1 hP2 hdnum hdoth ?_ ?_ hb3
    · exact beq_eq_false_iff_ne.mpr (by
        intro heq; rw [heq] at hdnum; exact absurd hdnum (by decide))
    · exact beq_eq_false_iff_ne.mpr (by
        intro heq; rw [heq] at hkoth; exact absurd hkoth (by decide))
  · refine ⟨WIDTH_OPERATION, by decide, ?_⟩
    refine c3_aux abspath ("width") num other WIDTH_OPERATION (by decide) (by decide)
      hP1 hP2 hdnum hdoth ?_ ?_ hb3
    · exact beq_eq_false_iff_ne.mpr (by
        intro heq; rw [heq] at hdnum; exact absurd hdnum (by decide))
    · exact beq_eq_false_iff_ne.mpr (by
        intro heq; rw [heq] at hkoth; exact absurd hkoth (by decide))

theorem c3_perm_witness :
    ("height" ∈ ["h", "height", "w", "width"] ∧
      OPERATION_ARGUMENTS.lookup ⟨py_lower ("1080").data⟩ = none ∧
      OPERATION_ARGUMENTS.lookup ⟨py_lower ("photos/").data⟩ = none ∧
      py_isdigit ("1080") = true ∧ py_isdigit ("photos/") = false) ∧
    (∃ o : Operation, OPERATION_ARGUMENTS.lookup ("height") = some o ∧
      ∀ args ∈ [["height", "1080", "photos/"], ["height", "photos/", "1080"],
        ["1080", "height", "photos/"], ["1080", "photos/", "height"],
        ["photos/", "height", "1080"], ["photos/", "1080", "height"]],
        to_settings id args = .ok ⟨some o, some (py_int ("1080")), id ("photos/")⟩) :=
  ⟨⟨by decide, by decide, by decide, by decide, by decide⟩,
    c3_perm id ("height") ("1080") ("photos/") (by decide) (by decide) (by decide)
      (by decide) (by decide)⟩

/-- C7: the operation keyword is matched case-insensitively but then used
in its original case as the dictionary key, so any keyword not already in
lower case raises `KeyError` instead of being mapped to its `Operation` —
the parser never reaches the length or path slots. -/
theorem c7_keyerror :
    to_settings id ["H", "1080", "photos/"] = .error .keyError := rfl

theorem to_int_snd (i : Option String) (items : List String) :
    (to_int_and_remainder i items).2 = items := by
  cases i <;> rfl

theorem item_and_remainder_len (i : Option String) (items : List String) :
    items.length - 1 ≤ (item_and_remainder i items).2.length := by
  cases i with
  | none => simp only [item_and_remainder]; omega
  | some x =>
    simp only [item_and_remainder]
    rw [List.length_erase]
    split <;> omega

/-- C10: with at least 3 tokens the parser cannot fail with `IndexError`
on its final path access: the operation and length steps each remove at
most one token, so a token always remains. -/
theorem c10_no_indexerror (abspath : String → String) (args : List String)
    (h3 : 3 ≤ args.length) :
    to_settings abspath args ≠ .error .indexError := by
  have hrem1 : 2 ≤ (item_and_remainder
      (find_match_in_list args OPERATION_ARGUMENTS) args).2.length := by
    have := item_and_remainder_len (find_match_in_list args OPERATION_ARGUMENTS) args
    omega
  unfold to_settings
  rcases hgo : get_operation args with e | pr
  · simp only [get_operation, get_match_and_remainder] at hgo
    rw [to_match_and_remainder.eq_def] at hgo
    have he : e = PyErr.keyError := by
      rcases hit : (item_and_remainder
          (find_match_in_list args OPERATION_ARGUMENTS) args).1 with _ | x
      · rw [hit] at hgo; simp at hgo
      · rw [hit] at hgo
        simp only [] at hgo
        rcases hlk : OPERATION_ARGUMENTS.lookup x with _ | o
        · rw [hlk] at hgo
          simp only [Except.error.injEq] at hgo
          exact hgo.symm
        · rw [hlk] at hgo; simp at hgo
    subst he
    simp
  · obtain ⟨op1, rem1⟩ := pr
    have hpr2 : 2 ≤ rem1.length := by
      simp only [get_operation, get_match_and_remainder] at hgo
      rw [to_match_and_remainder.eq_def] at hgo
      rcases hit : (item_and_remainder
          (find_match_in_list args OPERATION_ARGUMENTS) args).1 with _ | x
      · rw [hit] at hgo
        simp only [] at hgo
        simp only [Except.ok.injEq, Prod.mk.injEq] at hgo
        rw [← hgo.2]
        exact hrem1
      · rw [hit] at hgo
        simp only [] at hgo
        rcases hlk : OPERATION_ARGUMENTS.lookup x with _ | o
        · rw [hlk] at hgo; simp at hgo
        · rw [hlk] at hgo
          simp only [Except.ok.injEq, Prod.mk.injEq] at hgo
          rw [← hgo.2]
          exact hrem1
    have hrem2 : 1 ≤ (get_length rem1).2.length := by
      rw [get_length, get_number_and_remainder, to_int_snd]
      have := item_and_remainder_len (find_number_in_list rem1) rem1
      omega
    rcases hhd : (get_length rem1).2 with _ | ⟨y, ys⟩
    · rw [hhd] at hrem2; simp at hrem2
    · simp [hhd]

theorem c10_no_indexerror_witness :
    3 ≤ (["h", "5", "pics"] : List String).length ∧
    to_settings id ["h", "5", "pics"] ≠ .error .indexError :=
  ⟨by decide, c10_no_indexerror id ["h", "5", "pics"] (by decide)⟩

/-! ### CLI driver theorems -/

/-- C4: a validation failure (here: no all-digits token, so the length is
undefined) exits with code 1 before any file is opened or written — but
the descriptive error message is never printed: `show_error_and_exit`
contains a bare `print` expression statement that does not call the
builtin, so only blank lines reach standard output. -/
theorem c4_validation_silent (abspath : String → String)
    (read_files : String → List String) (size_of : String → Size) :
    run abspath read_files size_of ["resize", "height", "photos", "backup"]
      = ⟨["", ""], 1, false, [], []⟩ ∧
    "Missing resize length." ∉
      (run abspath read_files size_of
        ["resize", "height", "photos", "backup"]).output := by
  have h1 : run abspath read_files size_of ["resize", "height", "photos", "backup"]
      = ⟨["", ""], 1, false, [], []⟩ := rfl
  refine ⟨h1, ?_⟩
  rw [h1]
  decide

/-- C8: with fewer than 3 tokens after the program name, the driver prints
the initial blank line and the help text, exits with status 0, opens and
writes no file, and the outcome does not depend on the path resolver, the
filesystem, or the image oracle (the parser and enumerator are never
invoked). -/
theorem c8_help (abspath : String → String)
    (read_files : String → List String) (size_of : String → Size)
    (prog : String) (tokens : List String) (h : tokens.length < 3) :
    run abspath read_files size_of (prog :: tokens)
      = ⟨["", HELP], 0, false, [], []⟩ := by
  unfold run
  rw [if_pos]
  simp only [List.length_cons]
  omega

theorem c8_help_witness :
    (["height"] : List String).length < 3 ∧
    run id (fun _ => []) (fun _ => ⟨1, 1⟩) ("resize" :: ["height"])
      = ⟨["", HELP], 0, false, [], []⟩ :=
  ⟨by decide,
    c8_help id (fun _ => []) (fun _ => ⟨1, 1⟩) "resize" ["height"] (by decide)⟩

/-! ### Filename theorems -/

theorem length_resize_name (p : List Char) :
    p.length + 10 ≤ (resize_name p).length := by
  rw [resize_name, List.length_append, List.length_append]
  have h11 : (" - resized.".data).length = 11 := rfl
  rw [h11, removesuffix]
  split_ifs with h
  · obtain ⟨-, hsuf⟩ := h
    have hlen : ('.' :: extension p).length ≤ p.length :=
      (List.isSuffixOf_iff_suffix.1 hsuf).length_le
    rw [List.length_take]
    simp only [List.length_cons] at hlen ⊢
    omega
  · omega

/-- C9: each resize operation opens only its input file and writes only to
the derived name `resize_name(path)`, and the derived name is never equal
to the original path (it is at least ten characters longer), so the
original file is never overwritten. -/
theorem c9_never_overwrites (size_of : String → Size) (path : String)
    (n : ℤ) :
    (resize_to_height size_of path n).opened = [path] ∧
    (resize_to_height size_of path n).saved.map Prod.fst = [resize_nameS path] ∧
    (resize_to_width size_of path n).opened = [path] ∧
    (resize_to_width size_of path n).saved.map Prod.fst = [resize_nameS path] ∧
    resize_nameS path ≠ path := by
  refine ⟨rfl, rfl, rfl, rfl, ?_⟩
  intro heq
  have hdata : resize_name path.data = path.data := congrArg String.data heq
  have := length_resize_name path.data
  rw [hdata] at this
  omega

/-- Output filename as the specification words it (a refinement reference,
following the spec, not the code): remove the extension suffix from the
name and append `" - resized."` followed by the original extension,
preserving its case. -/
def spec_resize_name (p : List Char) : List Char :=
  (splitext p).1 ++ " - resized.".data ++ (splitext p).2.drop 1

/-- C5 counterexample: for `"photo.PNG"` the code does not remove the
extension suffix (it only removes the lower-cased suffix `".png"`, which
is not present) and appends the lower-cased extension, producing
`"photo.PNG - resized.png"` instead of the specified
`"photo - resized.PNG"`. -/
theorem c5_counterexample :
    resize_name ("photo.PNG").data = ("photo.PNG - resized.png").data ∧
    spec_resize_name ("photo.PNG").data = ("photo - resized.PNG").data ∧
    resize_name ("photo.PNG").data ≠ spec_resize_name ("photo.PNG").data :=
  ⟨by decide, by decide, by decide⟩

/-- C5 (amended): the output name is obtained by removing the suffix
`'.' + extension(path)` — where `extension` is lower-cased — when the path
ends with that suffix, and appending `" - resized." + extension(path)`;
so a lower-case extension is stripped and replaced, while a name whose
extension has upper-case letters is kept whole, with
`" - resized." + lower-cased extension` appended after it. -/
theorem c5_amended (p : List Char) :
    (('.' :: extension p).isSuffixOf p = true →
      resize_name p = p.take (p.length - (extension p).length - 1)
        ++ " - resized.".data ++ extension p) ∧
    (('.' :: extension p).isSuffixOf p = false →
      resize_name p = p ++ " - resized.".data ++ extension p) := by
  constructor
  · intro h
    rw [resize_name, removesuffix, if_pos ⟨by simp, h⟩]
    simp only [List.length_cons]
    rw [show p.length - ((extension p).length + 1)
        = p.length - (extension p).length - 1 from by omega]
  · intro h
    have hneg : ¬(('.' :: extension p) ≠ [] ∧
        ('.' :: extension p).isSuffixOf p = true) := by
      intro hc
      rw [h] at hc
      exact absurd hc.2 (by decide)
    rw [resize_name, removesuffix, if_neg hneg]

theorem c5_amended_witness :
    (('.' :: extension ("photo.png").data).isSuffixOf ("photo.png").data = true) ∧
    resize_name ("photo.png").data =
      ("photo.png").data.take
          (("photo.png").data.length - (extension ("photo.png").data).length - 1)
        ++ " - resized.".data ++ extension ("photo.png").data :=
  ⟨by decide, (c5_amended ("photo.png").data).1 (by decide)⟩

theorem lastIdxOf_append_cons (c : Char) (xs ys : List Char) (h : c ∉ ys) :
    lastIdxOf c (xs ++ c :: ys) = some xs.length := by
  have hfi : ((xs ++ c :: ys).reverse).findIdx? (· == c) = some ys.length := by
    rw [List.reverse_append, List.reverse_cons, List.append_assoc]
    rw [List.findIdx?_append]
    have h1 : List.findIdx? (· == c) ys.reverse = none := by
      rw [List.findIdx?_eq_none_iff]
      intro x hx
      rw [List.mem_reverse] at hx
      exact beq_eq_false_iff_ne.mpr (fun heq => h (heq ▸ hx))
    have h2 : List.findIdx? (· == c) ([c] ++ xs.reverse) = some 0 := by
      rw [List.singleton_append, List.findIdx?_cons]
      simp
    rw [h1, h2]
    simp
  rw [lastIdxOf.eq_def, hfi]
  simp only [List.length_append, List.length_cons]
  congr 1
  omega

theorem lastIdxOf_not_mem (c : Char) (l : List Char) (h : c ∉ l) :
    lastIdxOf c l = none := by
  have hfi : (l.reverse).findIdx? (· == c) = none := by
    rw [List.findIdx?_eq_none_iff]
    intro x hx
    rw [List.mem_reverse] at hx
    exact beq_eq_false_iff_ne.mpr (fun heq => h (heq ▸ hx))
  rw [lastIdxOf.eq_def, hfi]

theorem splitext_decomp (dir s e : List Char)
    (hdir : dir = [] ∨ ∃ dir', dir = dir' ++ ['/'])
    (hs : '/' ∉ s) (hse : '/' ∉ e) (hde : '.' ∉ e)
    (hstem : ∃ c ∈ s, c ≠ '.') :
    splitext ((dir ++ s) ++ '.' :: e) = (dir ++ s, '.' :: e) := by
  have hdot : lastIdxOf '.' ((dir ++ s) ++ '.' :: e) = some (dir ++ s).length :=
    lastIdxOf_append_cons '.' (dir ++ s) e hde
  have hany : s.any (· ≠ '.') = true := by
    rw [List.any_eq_true]
    obtain ⟨c, hc, hcne⟩ := hstem
    exact ⟨c, hc, decide_eq_true hcne⟩
  rw [splitext.eq_def, hdot]
  simp only []
  rcases hdir with hnil | ⟨dir', hdir'⟩
  · subst hnil
    have hsl : lastIdxOf '/' (([] ++ s) ++ '.' :: e) = none := by
      apply lastIdxOf_not_mem
      intro hmem
      rcases List.mem_append.1 hmem with h1 | h2
      · exact hs (by simpa using h1)
      · rcases List.mem_cons.1 h2 with h3 | h4
        · exact absurd h3 (by decide)
        · exact hse h4
    rw [hsl]
    simp only [List.nil_append]
    rw [if_pos ⟨Nat.zero_le _, by
      rw [List.drop_zero, Nat.sub_zero, List.take_left]
      exact hany⟩]
    rw [List.take_left, List.drop_left]
  · have hsl : lastIdxOf '/' ((dir ++ s) ++ '.' :: e) = some dir'.length := by
      have hshape : (dir ++ s) ++ '.' :: e = dir' ++ '/' :: (s ++ '.' :: e) := by
        rw [hdir']
        simp [List.append_assoc]

      rw [hshape]
      apply lastIdxOf_append_cons
      intro hmem
      rcases List.mem_append.1 hmem with h1 | h2
      · exact hs h1
      · rcases List.mem_cons.1 h2 with h3 | h4
        · exact absurd h3 (by decide)
        · exact hse h4
    rw [hsl]
    simp only []
    have hdl : dir'.length + 1 = dir.length := by
      rw [hdir', List.length_append]
      rfl
    have hslice : (((dir ++ s) ++ '.' :: e).drop (dir'.length + 1)).take
        ((dir ++ s).length - (dir'.length + 1)) = s := by
      rw [hdl, List.append_assoc, List.drop_left]
      rw [show (dir ++ s).length - dir.length = s.length from by
        rw [List.length_append]; omega]
      exact List.take_left s ('.' :: e)
    rw [if_pos ⟨by rw [hdl, List.length_append]; omega, by rw [hslice]; exact hany⟩]
    rw [List.take_left, List.drop_left]

theorem extension_decomp (dir s e : List Char)
    (hdir : dir = [] ∨ ∃ dir', dir = dir' ++ ['/'])
    (hs : '/' ∉ s) (hse : '/' ∉ e) (hde : '.' ∉ e)
    (hstem : ∃ c ∈ s, c ≠ '.') :
    extension ((dir ++ s) ++ '.' :: e) = py_lower e := by
  have hc : ((dir ++ s) ++ '.' :: e).contains '.' = true :=
    List.elem_iff.mpr (List.mem_append.2 (Or.inr (List.mem_cons_self _ _)))
  rw [extension, if_pos hc, splitext_decomp dir s e hdir hs hse hde hstem]
  rfl

/-- C6 counterexample: the name `".gif"` ends in `".gif"` (an image
extension), yet `is_image` returns `false`, because `os.path.splitext`
treats the leading dot of a hidden file as part of the base name, not as
an extension separator. -/
theorem c6_counterexample :
    is_image (".gif").data = false ∧
    ('.' :: ("gif").data).isSuffixOf (".gif").data = true ∧
    ("gif").data ∈ IMAGE_EXTENSIONS :=
  ⟨by decide, by decide, by decide⟩

/-- C6 (amended): for every filename that decomposes as
`dir ++ stem ++ '.' ++ ext` — `dir` empty or ending in `'/'`, `stem` and
`ext` slash-free, `ext` dot-free, and `stem` containing at least one
character other than `'.'` — `is_image` returns true exactly when the
lower-cased `ext` is one of gif/jpg/jpeg/png/webp; and every filename with
no `'.'` at all yields false.  (Names whose final component consists only
of dots before the last dot, such as `".gif"`, have no extension and yield
false; see the counterexample.) -/
theorem c6_amended (dir s e : List Char)
    (hdir : dir = [] ∨ ∃ dir', dir = dir' ++ ['/'])
    (hs : '/' ∉ s) (hse : '/' ∉ e) (hde : '.' ∉ e)
    (hstem : ∃ c ∈ s, c ≠ '.') :
    (is_image ((dir ++ s) ++ '.' :: e) = true ↔ py_lower e ∈ IMAGE_EXTENSIONS) ∧
    ∀ l : List Char, '.' ∉ l → is_image l = false := by
  constructor
  · rw [is_image, extension_decomp dir s e hdir hs hse hde hstem]
    exact List.elem_iff
  · intro l hl
    rw [is_image, extension, if_neg]
    · decide
    · intro hc
      exact hl (List.elem_iff.mp hc)

theorem c6_amended_witness :
    (([] : List Char) = [] ∨ ∃ dir', ([] : List Char) = dir' ++ ['/']) ∧
    ('/' ∉ ("photo").data) ∧ ('/' ∉ ("GIF").data) ∧ ('.' ∉ ("GIF").data) ∧
    (∃ c ∈ ("photo").data, c ≠ '.') ∧
    ((is_image (([] ++ ("photo").data) ++ '.' :: ("GIF").data) = true ↔
        py_lower ("GIF").data ∈ IMAGE_EXTENSIONS) ∧
      ∀ l : List Char, '.' ∉ l → is_image l = false) :=
  ⟨Or.inl rfl, by decide, by decide, by decide, by decide,
    c6_amended [] ("photo").data ("GIF").data (Or.inl rfl) (by decide) (by decide)
      (by decide) (by decide)⟩

end Resize
